import Mathlib

/-!
Verification development for `react-mutable-dom`: a shallow embedding of the
mutation-lock / revert / snapshot / registry / dispatch core
(`useRevertMutations`, `revertDOMMutation`, `RevertedTree`,
`MutableRegistry`, `MutableRoot.handleAllMutations`) together with proofs
about the embedded definitions.

Conventions:
* DOM nodes are identified by `Nat`.
* Attribute names and all string values are Lean `String`s.
* A live DOM state (`Dom`) carries the child list of every node, the parent
  pointer of every node, the attribute maps and the character data.
-/

namespace MutableDom

/-- Index of the first occurrence of `x` in a list (`length` when absent);
mirrors `Array.prototype.indexOf` / position counting used in ordering
arguments. -/
def idxOf (x : Nat) : List Nat → Nat
  | [] => 0
  | y :: l => if y = x then 0 else idxOf x l + 1

/-- The element immediately after the first occurrence of `n` in `l`
(`none` when `n` is last or absent): the `nextSibling` recorded for a
removed child. -/
def nextAfter (n : Nat) : List Nat → Option Nat
  | [] => none
  | y :: l => if y = n then l.head? else nextAfter n l

/-- The element immediately before the first occurrence of `n` in `l`:
the `previousSibling` recorded for a removed child. -/
def prevBefore (n : Nat) : List Nat → Option Nat
  | [] => none
  | [_] => none
  | y :: z :: l => if z = n then some y else prevBefore n (z :: l)

/-- Insert `n` into `l` immediately before the first occurrence of `ref`
(append at the end when `ref` is `none` or not present): the list effect of
`parent.insertBefore(n, ref)`. -/
def insertList (n : Nat) (ref : Option Nat) : List Nat → List Nat
  | [] => [n]
  | y :: l =>
    match ref with
    | none => y :: insertList n none l
    | some r => if y = r then n :: y :: l else y :: insertList n ref l

/-- A live DOM state: child lists, parent pointers, attributes, character
data. `children` and `parent` are kept in sync by every operation below. -/
structure Dom where
  children : Nat → List Nat
  parent : Nat → Option Nat
  attrs : Nat → String → Option String
  text : Nat → String

/-- Embeds `target.setAttribute(name, value)`. -/
def setAttrM (d : Dom) (target : Nat) (name value : String) : Dom :=
  { d with attrs := fun n a => if n = target ∧ a = name then some value else d.attrs n a }

/-- Embeds `target.removeAttribute(name)`. -/
def removeAttrM (d : Dom) (target : Nat) (name : String) : Dom :=
  { d with attrs := fun n a => if n = target ∧ a = name then none else d.attrs n a }

/-- Embeds `target.textContent = value` on a character-data node. -/
def setTextM (d : Dom) (target : Nat) (value : String) : Dom :=
  { d with text := fun n => if n = target then value else d.text n }

/-- Detach `node` from its current parent, if any (the removal half of the
DOM insertion/removal algorithms; `parent.removeChild(node)` for the
parent recorded in `node.parentNode`). -/
def detachM (d : Dom) (node : Nat) : Dom :=
  match d.parent node with
  | none => d
  | some p =>
    { d with
      children := fun n => if n = p then (d.children p).erase node else d.children n
      parent := fun n => if n = node then none else d.parent n }

/-- Embeds `target.insertBefore(node, ref)`: DOM pre-insertion validity first
throws `NotFoundError` when `ref` is non-null but not a child of `target`;
otherwise `node` is detached from its current parent and inserted into
`target`'s child list immediately before `ref` (appended when `ref` is
null). The hierarchy-request (cycle) check is not modelled; no claim in
this development depends on it. -/
def insertBeforeM (d : Dom) (target node : Nat) (ref : Option Nat) : Except Unit Dom :=
  match ref with
  | some r =>
    if r ∈ d.children target then
      let d1 := detachM d node
      Except.ok { d1 with
        children := fun n => if n = target then insertList node (some r) (d1.children target) else d1.children n
        parent := fun n => if n = node then some target else d1.parent n }
    else Except.error ()
  | none =>
    let d1 := detachM d node
    Except.ok { d1 with
      children := fun n => if n = target then insertList node none (d1.children target) else d1.children n
      parent := fun n => if n = node then some target else d1.parent n }

/-- The shape of a `MutationRecord` as consumed by `revertDOMMutation`:
a tagged variant over attribute, character-data and child-list changes.
`childList` carries the ordered removed and added node lists and the
recorded `previousSibling`/`nextSibling` context. -/
inductive MRecord where
  | attributes (target : Nat) (attributeName : String) (oldValue : Option String)
  | characterData (target : Nat) (oldValue : String)
  | childList (target : Nat) (removedNodes addedNodes : List Nat)
      (previousSibling nextSibling : Option Nat)
deriving DecidableEq, Repr

/-- The target node of a record (`mutation.target`). -/
def MRecord.target : MRecord → Nat
  | .attributes t _ _ => t
  | .characterData t _ => t
  | .childList t _ _ _ _ => t

/-- Loop of `revertDOMMutation`'s childList case over `removedNodes`,
from the last index down to the first: each removed node is reinserted
into `mutation.target` before `mutation.nextSibling`. A `NotFoundError`
from `insertBefore` propagates (the source has no try/catch here). -/
def reinsertRemovedRev (target : Nat) (nextSibling : Option Nat) :
    Dom → List Nat → Except Unit Dom
  | d, [] => .ok d
  | d, n :: rest =>
    match insertBeforeM d target n nextSibling with
    | .ok d1 => reinsertRemovedRev target nextSibling d1 rest
    | .error e => .error e

/-- The same loop, entered at the last index: iterate the reversed list. -/
def reinsertRemoved (target : Nat) (nextSibling : Option Nat)
    (d : Dom) (ns : List Nat) : Except Unit Dom :=
  reinsertRemovedRev target nextSibling d ns.reverse

/-- Loop of `revertDOMMutation`'s childList case over `addedNodes`, from
the last index down to the first: each added node that still has a parent
is detached (`node.parentNode.removeChild(node)`). -/
def removeAdded (d : Dom) (ns : List Nat) : Dom :=
  ns.reverse.foldl (fun acc n => detachM acc n) d

/-- Embeds `revertDOMMutation` (src/unnamed/part_000, lines 224-263): undo one
recorded mutation against the current tree. Attribute records restore or
remove the attribute per `oldValue`; character-data records restore the
old text; child-list records reinsert the removed nodes last-to-first
before the recorded `nextSibling` and detach the added nodes last-to-first.
An exception from `insertBefore` (unresolvable sibling reference)
propagates to the caller. -/
def revertDOMMutation (d : Dom) : MRecord → Except Unit Dom
  | .attributes target name oldValue =>
    match oldValue with
    | none => Except.ok (removeAttrM d target name)
    | some v => Except.ok (setAttrM d target name v)
  | .characterData target oldValue => Except.ok (setTextM d target oldValue)
  | .childList target removed added _prev next =>
    match reinsertRemoved target next d removed with
    | .ok d1 => .ok (removeAdded d1 added)
    | .error e => .error e

/-- The revert loop of `stopObservingAndRollBackChanges`
(src/unnamed/part_000, lines 160-163): revert the records of `newestFirst`
one at a time, in order. There is no try/catch around `revertDOMMutation`,
so an exception aborts the loop: the result carries the tree reached so
far, the successfully reverted records in revert order, and whether an
exception escaped. -/
def rollBackAll (d : Dom) : List MRecord → Dom × List MRecord × Bool
  | [] => (d, [], false)
  | r :: rest =>
    match revertDOMMutation d r with
    | .ok d1 =>
      ((rollBackAll d1 rest).1, r :: (rollBackAll d1 rest).2.1,
       (rollBackAll d1 rest).2.2)
    | .error _ => (d, [], true)

/-- A native edit inside the guarded subtree, at the granularity the host
tree reports: attribute set/removal, character-data write, single-child
insertion/removal, and the host's "replace all children" write (for
example clearing `textContent`), which removes every child in one step. -/
inductive MutOp where
  | setAttr (target : Nat) (name value : String)
  | removeAttr (target : Nat) (name : String)
  | setText (target : Nat) (value : String)
  | insertBefore (target node : Nat) (ref : Option Nat)
  | removeChild (target node : Nat)
  | removeAllChildren (target : Nat)
deriving DecidableEq, Repr

/-- Whether an operation is the multi-child replace-all write. -/
def MutOp.isRemoveAll : MutOp → Bool
  | .removeAllChildren _ => true
  | _ => false

/-- Modelled from the spec: the host change-observation mechanism that
produces mutation records is outside the repository (spec sections 3 and 6).
Per the spec's data model, an attribute or character-data record carries the
previous value, and a child-list record carries the ordered removed/added
node lists with their sibling context; a replace-all write produces a
single record listing every removed child. `applyOp` performs one native
edit, checking the DOM preconditions (it returns `none` where the real DOM
operation would throw or the state is not a well-formed tree locally), and
returns the new tree with the record the observer would queue. -/
def applyOp (d : Dom) : MutOp → Option (Dom × MRecord)
  | .setAttr target name value =>
    some (setAttrM d target name value, .attributes target name (d.attrs target name))
  | .removeAttr target name =>
    some (removeAttrM d target name, .attributes target name (d.attrs target name))
  | .setText target value =>
    some (setTextM d target value, .characterData target (d.text target))
  | .insertBefore target node ref =>
    let refOk : Bool := match ref with
      | some r => decide (r ∈ d.children target ∧ r ≠ node)
      | none => true
    if d.parent node = none ∧ node ∉ d.children target ∧ node ≠ target ∧ refOk = true then
      let prev := match ref with
        | some r => prevBefore r (d.children target)
        | none => (d.children target).getLast?
      match insertBeforeM d target node ref with
      | .ok d1 => some (d1, .childList target [] [node] prev ref)
      | .error _ => none
    else none
  | .removeChild target node =>
    if node ∈ d.children target ∧ (d.children target).Nodup ∧ d.parent node = some target then
      some (detachM d node,
        .childList target [node] [] (prevBefore node (d.children target))
          (nextAfter node (d.children target)))
    else none
  | .removeAllChildren target =>
    if (d.children target).Nodup ∧ (∀ k ∈ d.children target, d.parent k = some target) ∧
        target ∉ d.children target then
      some ({ d with
          children := fun n => if n = target then [] else d.children n
          parent := fun n => if n ∈ d.children target then none else d.parent n },
        .childList target (d.children target) [] none none)
    else none

/-- Apply a sequence of native edits oldest-first, collecting the records
in observation order (oldest-first), as the observer delivers them. -/
def applyOps (d : Dom) : List MutOp → Option (Dom × List MRecord)
  | [] => some (d, [])
  | op :: ops => do
    let (d1, r) ← applyOp d op
    let (d2, rs) ← applyOps d1 ops
    some (d2, r :: rs)

/-! ### RevertedTree (src/components/MutableRoot.tsx, lines 162-253)

The snapshot is a per-batch map from node to its previous-parent override;
`RevertedTree.forMutations` replays the batch newest-first and, for each
child-list record, sets the override of every removed node (last-to-first)
to the record's target. Attribute/characterData records contribute nothing,
and added nodes are recorded but not acted upon. -/

/-- One override assignment `getRevertedNode(removedNode).previousParent =
mutation.target`; a later assignment shadows an earlier one. -/
def setOverride (f : Nat → Option Nat) (node target : Nat) : Nat → Option Nat :=
  fun m => if m = node then some target else f m

/-- Embeds `RevertedTree.revertDOMMutation`: the snapshot contribution of one
record (only child-list records contribute; removed nodes are processed
last-to-first). -/
def snapshotRecord (f : Nat → Option Nat) : MRecord → (Nat → Option Nat)
  | .childList target removed _ _ _ =>
    removed.reverse.foldl (fun acc n => setOverride acc n target) f
  | _ => f

/-- Embeds `RevertedTree.forMutations`: fold the batch newest-first into the
override map (no overrides initially). -/
def forMutations (recs : List MRecord) : Nat → Option Nat :=
  recs.reverse.foldl snapshotRecord (fun _ => none)

/-- Embeds `RevertedNode.parentNode`: the previous parent of `n` is the override
when set, else the node's live current parent. -/
def prevParent (d : Dom) (ov : Nat → Option Nat) (n : Nat) : Option Nat :=
  match ov n with
  | some p => some p
  | none => d.parent n

/-- The `while ((parent = parent.parentNode))` walk: starting from `cur`,
successively take previous-parents and report whether any of them equals
`tgt`. Fuel bounds the walk (the source loop would diverge on a cyclic
override chain). -/
def chainHits (d : Dom) (ov : Nat → Option Nat) (tgt : Nat) : Nat → Nat → Bool
  | 0, _ => false
  | fuel + 1, cur =>
    match prevParent d ov cur with
    | none => false
    | some p => p = tgt || chainHits d ov tgt fuel p

/-- Embeds `RevertedTree.mutationIsInside` (lines 176-188), as written in the
source: true when `mutation.target === node`, else the loop starts from
`this.getRevertedNode(node)` — the *listener* node — and compares each of
its strict previous-ancestors against `node` itself. -/
def mutationIsInside (fuel : Nat) (d : Dom) (ov : Nat → Option Nat)
    (m : MRecord) (node : Nat) : Bool :=
  m.target = node || chainHits d ov node fuel node

/-- Modelled from the spec: the dispatcher filter keeps a record `r` for a
listener node when `snapshot.isAncestorOf(node, r.target) OR r.target ==
node` (spec section 4.5), where ancestry is the transitive closure of
previous-parent starting from `r.target` (spec section 4.3). Stated here
as a second definition, to be compared with `mutationIsInside`. -/
def specFilterIncludes (fuel : Nat) (d : Dom) (ov : Nat → Option Nat)
    (m : MRecord) (node : Nat) : Bool :=
  m.target = node || chainHits d ov node fuel m.target

/-! ### MutableRegistry (src/unnamed/part_001) -/

/-- Embeds `Map.prototype.get`. -/
def mapGet {α β : Type} [DecidableEq α] (k : α) : List (α × β) → Option β
  | [] => none
  | (k', v) :: l => if k' = k then some v else mapGet k l

/-- Embeds `Map.prototype.set`: update in place when the key is present, else
append (JS `Map` preserves insertion order). -/
def mapSet {α β : Type} [DecidableEq α] (k : α) (v : β) : List (α × β) → List (α × β)
  | [] => [(k, v)]
  | (k', v') :: l => if k' = k then (k, v) :: l else (k', v') :: mapSet k v l

/-- Embeds `Map.prototype.delete` (removes the first entry with the key). -/
def mapDelete {α β : Type} [DecidableEq α] (k : α) : List (α × β) → List (α × β)
  | [] => []
  | (k', v') :: l => if k' = k then l else (k', v') :: mapDelete k l

/-- Embeds `MutableRegistry`: `nodeToHandler` is keyed by the (possibly null)
node, `idToNode` maps a registration id to its (possibly null) node.
`β` is the handler type. -/
structure MutableRegistry (β : Type) where
  nodeToHandler : List (Option Nat × β)
  idToNode : List (Nat × Option Nat)

/-- Embeds `MutableRegistry.unregister(id)`: look `id` up, delete it from
`idToNode`, and delete its node's handler entry; when `id` is unknown,
`idToNode.get` yields `undefined` and the `nodeToHandler.delete(undefined)`
call deletes nothing (no node key is ever `undefined`). -/
def MutableRegistry.unregister {β : Type} (reg : MutableRegistry β) (id : Nat) :
    MutableRegistry β :=
  { idToNode := mapDelete id reg.idToNode
    nodeToHandler :=
      match mapGet id reg.idToNode with
      | none => reg.nodeToHandler
      | some nd => mapDelete nd reg.nodeToHandler }

/-- Embeds `MutableRegistry.register(id, node, onMutations)`: first unregister
`id`, then point `id` at `node` and `node` at the handler. -/
def MutableRegistry.register {β : Type} (reg : MutableRegistry β) (id : Nat)
    (node : Option Nat) (onMutations : β) : MutableRegistry β :=
  let r1 := reg.unregister id
  { idToNode := mapSet id node r1.idToNode
    nodeToHandler := mapSet node onMutations r1.nodeToHandler }

/-! ### The mutation lock (src/unnamed/part_000, `useRevertMutations`)

The closure state of `useRevertMutations`: whether a `MutationObserver`
could be constructed, the `isObserving` flag, the `shouldRevert` ref, the
guarded root (`nodeRef`), the pending record queue and the live tree.
Observable actions (stopping/starting observation, the `onMutations`
notification, each individual revert) are collected in an event log. -/

inductive LockEvent where
  | stopped
  | started
  | notified (batch : List MRecord)
  | reverted (r : MRecord)
deriving DecidableEq, Repr

/-- Whether an event is an individual-record revert. -/
def LockEvent.isRevertedEv : LockEvent → Bool
  | .reverted _ => true
  | _ => false

/-- Whether an event is an `onMutations` notification. -/
def LockEvent.isNotifiedEv : LockEvent → Bool
  | .notified _ => true
  | _ => false

structure LockState where
  observerPresent : Bool
  isObserving : Bool
  shouldRevert : Bool
  node : Option Nat
  queue : List MRecord
  dom : Dom

/-- Embeds `startObserving` (lines 122-132): a no-op while already observing;
otherwise, when a root node is set, call `observer?.observe` and set
`isObserving` — note the flag is set even when no observer exists
(`observer?.observe` short-circuits but the assignment still runs). The
`started` event marks an actual `observe` call. -/
def startObserving (s : LockState) : LockState × List LockEvent :=
  if s.isObserving then (s, [])
  else
    match s.node with
    | some _ =>
      ({ s with isObserving := true }, if s.observerPresent then [.started] else [])
    | none => (s, [])

/-- Embeds `stopObservingAndRollBackChanges` (lines 134-165): the whole body is
guarded by `if (observer)`. It disconnects (which also empties the
observer's internal record queue, so the following `takeRecords()`
contributes nothing), clears `isObserving`, drains the pending queue,
calls `onMutations` with a copy (`mutations.slice()`) of the oldest-first
batch, and only then reverts the records in reverse (newest-first) order.
An exception from a revert propagates (`threw`). -/
def stopObservingAndRollBackChanges (s : LockState) : LockState × List LockEvent × Bool :=
  if s.observerPresent then
    let run := rollBackAll s.dom s.queue.reverse
    ({ s with isObserving := false, queue := [], dom := run.1 },
     .stopped :: .notified s.queue :: run.2.1.map .reverted, run.2.2)
  else (s, [], false)

/-- Embeds `mutate` (lines 167-177): remember whether we were observing, stop and
roll back, run `fn` against the current root (skipped when the roll-back
threw — the exception propagates past `fn`), and in the `finally` block
resume observing when we were observing before. `fn` may rewrite the tree
and returns a value; `none` models the call ending in an exception. -/
def mutate {α : Type} (fn : Option Nat → Dom → Dom × α) (s : LockState) :
    LockState × List LockEvent × Option α :=
  let shouldLockAfterMutation := s.isObserving
  let stp := stopObservingAndRollBackChanges s
  if stp.2.2 then
    let fin := if shouldLockAfterMutation then startObserving stp.1 else (stp.1, [])
    (fin.1, stp.2.1 ++ fin.2, none)
  else
    let s2 := { stp.1 with dom := (fn stp.1.node stp.1.dom).1 }
    let fin := if shouldLockAfterMutation then startObserving s2 else (s2, [])
    (fin.1, stp.2.1 ++ fin.2, some (fn stp.1.node stp.1.dom).2)

/-- Embeds `unlockForRender` (lines 179-181): just stop and roll back. -/
def unlockForRender (s : LockState) : LockState × List LockEvent × Bool :=
  stopObservingAndRollBackChanges s

/-- Embeds `lockAfterRender` (lines 183-187): start observing when reverting is
desired. -/
def lockAfterRender (s : LockState) : LockState × List LockEvent :=
  if s.shouldRevert then startObserving s else (s, [])

/-- Embeds `isLocked` (lines 189-191). -/
def isLocked (s : LockState) : Bool :=
  s.shouldRevert

/-- The `MutationObserver` callback (lines 112-116): push the delivered
records onto the queue, stop observing and roll back, then resume
observing (not reached when the roll-back threw: there is no try/finally
in the callback). -/
def observerCallback (records : List MRecord) (s : LockState) :
    LockState × List LockEvent :=
  let stp := stopObservingAndRollBackChanges { s with queue := s.queue ++ records }
  if stp.2.2 then (stp.1, stp.2.1)
  else
    let fin := startObserving stp.1
    (fin.1, stp.2.1 ++ fin.2)

/-! ### The dispatcher (src/components/MutableRoot.tsx, `handleAllMutations`)

A handler is modelled by what it does with its event: from the filtered
record list it decides which records it passes to `stopPropagation` and
whether it throws. (`mutationsIn` is a pure query and does not affect the
dispatch state.) -/

structure HandlerResult where
  stops : List MRecord
  throws : Bool

def Handler : Type := List MRecord → HandlerResult

/-- Outcome of one dispatch pass: which listener nodes were invoked, in
order; the final stop-propagation set; and whether a handler's exception
escaped the pass (the source invokes `handler(event)` bare — "TODO: what
if it throws?"). -/
structure DispatchOutcome where
  invoked : List Nat
  claimed : List MRecord
  threw : Bool

/-- The `for (const [node, handler] of registry.depthFirstListeners)` loop
(lines 43-76): filter the batch to records neither stopped nor outside the
listener (via `RevertedTree.mutationIsInside`), skip the listener when the
filtered list is empty, otherwise invoke the handler (its `stopPropagation`
calls add to the shared set; an exception aborts the pass), and break early
once every record of the batch is stopped. -/
def dispatchLoop (fuel : Nat) (d : Dom) (ov : Nat → Option Nat)
    (mutations : List MRecord) (claimed : List MRecord) :
    List (Nat × Handler) → DispatchOutcome
  | [] => ⟨[], claimed, false⟩
  | (node, handler) :: rest =>
    let filtered := mutations.filter fun m =>
      !(claimed.contains m) && mutationIsInside fuel d ov m node
    if filtered.isEmpty then dispatchLoop fuel d ov mutations claimed rest
    else
      let res := handler filtered
      let claimed1 := res.stops.foldl (fun c r => c.insert r) claimed
      if res.throws then ⟨[node], claimed1, true⟩
      else if claimed1.length = mutations.length then ⟨[node], claimed1, false⟩
      else
        let out := dispatchLoop fuel d ov mutations claimed1 rest
        ⟨node :: out.invoked, out.claimed, out.threw⟩

/-- Embeds `handleAllMutations` (lines 39-79): build the `RevertedTree` snapshot
for the batch once, then run the listener loop with an initially empty
stop-propagation set. -/
def handleAllMutations (fuel : Nat) (d : Dom) (listeners : List (Nat × Handler))
    (mutations : List MRecord) : DispatchOutcome :=
  dispatchLoop fuel d (forMutations mutations) mutations [] listeners

/-! ### Document shape and listener ordering -/

/-- A document tree: a node id with an ordered list of child subtrees. -/
inductive DocTree where
  | node (id : Nat) (kids : List DocTree)

mutual

/-- Document (preorder) order of the ids of a tree. -/
def preorderT : DocTree → List Nat
  | .node i kids => i :: preorderF kids

/-- Document order of the ids of a forest. -/
def preorderF : List DocTree → List Nat
  | [] => []
  | t :: ts => preorderT t ++ preorderF ts

end

mutual

/-- Postorder of the ids of a tree: children before parents, unrelated
subtrees kept in document order. -/
def postorderT : DocTree → List Nat
  | .node i kids => postorderF kids ++ [i]

/-- Postorder of the ids of a forest. -/
def postorderF : List DocTree → List Nat
  | [] => []
  | t :: ts => postorderT t ++ postorderF ts

end

mutual

/-- The subtree rooted at id `a`, if `a` occurs in the tree. -/
def findT (a : Nat) : DocTree → Option DocTree
  | .node i kids => if i = a then some (.node i kids) else findF a kids

/-- The subtree rooted at id `a` within a forest (leftmost occurrence). -/
def findF (a : Nat) : List DocTree → Option DocTree
  | [] => none
  | t :: ts =>
    match findT a t with
    | some s => some s
    | none => findF a ts

end

/-- Node relation `a.contains(b)` read off the document tree `t`: `b` lies in the
subtree rooted at `a` (inclusive). -/
def containsB (t : DocTree) (a b : Nat) : Bool :=
  match findT a t with
  | some sub => (preorderT sub).contains b
  | none => false

/-- Containment within a forest: `b` lies in the subtree rooted at `a`. -/
def containsF (ts : List DocTree) (a b : Nat) : Bool :=
  match findF a ts with
  | some sub => (preorderT sub).contains b
  | none => false

/-- Modelled from the spec: `registry.depthFirstListeners`, iterated by
`handleAllMutations`, is missing from the sources (only its caller is under
src/). Spec section 4.4 derives it from the registration set: sorted so the
innermost (deepest / document-position-contained) node is visited first,
unrelated nodes stable by document order. Realised by traversing the
document in postorder (children precede parents; unrelated subtrees keep
document order) and collecting each node's registered handler. -/
def depthFirstListeners (t : DocTree) (regs : List (Nat × Handler)) :
    List (Nat × Handler) :=
  (postorderT t).filterMap fun n => (mapGet n regs).map fun h => (n, h)

/-! ### Concrete instances used when settling the claims -/

/-- The empty tree state: no children, no parents, no attributes, empty
text everywhere. -/
def trivDom : Dom :=
  { children := fun _ => [], parent := fun _ => none,
    attrs := fun _ _ => none, text := fun _ => "" }

/-- A tree in which node 1 is a child of node 0. -/
def c1Dom : Dom := { trivDom with parent := fun n => if n = 1 then some 0 else none }

/-- A character-data record targeting node 1. -/
def c1Rec : MRecord := .characterData 1 "a"

/-- A handler that neither stops propagation nor throws. -/
def hSilent : Handler := fun _ => ⟨[], false⟩

/-- A handler that throws without stopping anything. -/
def hThrows : Handler := fun _ => ⟨[], true⟩

/-- A character-data record targeting node 1. -/
def c5r1 : MRecord := .characterData 1 "a"

/-- A character-data record targeting node 2. -/
def c5r2 : MRecord := .characterData 2 "b"

/-- A state whose node 5 currently carries attribute x = "new". -/
def c6Dom : Dom :=
  { trivDom with attrs := fun n a => if n = 5 ∧ a = "x" then some "new" else none }

/-- An attribute record (older in the batch) whose revert would restore
x = "old" on node 5. -/
def c6Old : MRecord := .attributes 5 "x" (some "old")

/-- A child-list removal record (newest in the batch) whose recorded next
sibling, node 9, is not a child of the target at revert time, so its
`insertBefore` throws `NotFoundError`. -/
def c6New : MRecord := .childList 0 [7] [] none (some 9)

/-- A tree whose node 1 holds text "b" (the post-edit value). -/
def c2Dom : Dom := { trivDom with text := fun n => if n = 1 then "b" else "" }

/-- An observing lock over `c2Dom` with an empty pending queue. -/
def c2St : LockState :=
  { observerPresent := true, isObserving := true, shouldRevert := true,
    node := some 0, queue := [], dom := c2Dom }

/-- The delivered batch of one character-data record targeting node 1. -/
def c2Batch : List MRecord := [.characterData 1 "a"]

/-- A tree in which node 0 has the three children 1, 2, 3 in order. -/
def c3Dom : Dom :=
  { trivDom with
    children := fun n => if n = 0 then [1, 2, 3] else []
    parent := fun n => if n = 0 then none else if n ≤ 3 then some 0 else none }

/-- The result of clearing node 0's children in `c3Dom` (one replace-all
record removing [1, 2, 3]). -/
def c3Res : Dom × List MRecord :=
  (applyOps c3Dom [.removeAllChildren 0]).getD (c3Dom, [])

/-- Scenario of claim C3: parent 0 with single child 1 carrying
data-x = "1". -/
def c3wDom : Dom :=
  { trivDom with
    children := fun n => if n = 0 then [1] else []
    parent := fun n => if n = 1 then some 0 else none
    attrs := fun n a => if n = 1 ∧ a = "data-x" then some "1" else none }

/-- Scenario of claim C3: remove the attribute, then remove child 1 from
parent 0, in one batch. -/
def c3wOps : List MutOp := [.removeAttr 1 "data-x", .removeChild 0 1]

/-- The post-edit tree and recorded batch of the C3 scenario. -/
def c3wRes : Dom × List MRecord := (applyOps c3wDom c3wOps).getD (c3wDom, [])

/-- A lock that is not yet observing although reverting is desired and a
root is mounted (the state of every fresh mount). -/
def c8St : LockState :=
  { observerPresent := true, isObserving := false, shouldRevert := true,
    node := some 0, queue := [], dom := trivDom }

/-- An observing lock used to witness the amended cycle-identity claim. -/
def c8wSt : LockState :=
  { observerPresent := true, isObserving := true, shouldRevert := true,
    node := some 0, queue := [], dom := trivDom }

/-- A lock whose host lacks `MutationObserver`. -/
def c7St : LockState :=
  { observerPresent := false, isObserving := true, shouldRevert := true,
    node := some 0, queue := [], dom := c2Dom }

/-- A scoped mutation writing text "z" into node 1 and returning 42. -/
def mutFn : Option Nat → Dom → Dom × Nat := fun _ d => (setTextM d 1 "z", 42)

/-- A non-observing lock with a pending record, observer present. -/
def c9St : LockState :=
  { observerPresent := true, isObserving := false, shouldRevert := false,
    node := none, queue := [.characterData 1 "a"], dom := c2Dom }

/-- Document tree 0 > (1 > 2), 3 for the bubbling-order witness. -/
def c4wTree : DocTree := .node 0 [.node 1 [.node 2 []], .node 3 []]

/-- Registrations on nodes 1 and 0 (ancestor 0, descendant 1). -/
def c4wRegs : List (Nat × Handler) := [(0, hSilent), (1, hSilent)]

/-- A batch with one record targeting node 1 and one targeting node 0. -/
def c4wMuts : List MRecord := [.characterData 1 "x", .characterData 0 "y"]

/-- The empty registry with `Nat` handler tags. -/
def c10wReg : MutableRegistry Nat := ⟨[], []⟩

/-! ### Claim theorems -/

/-- C1: the claim says the dispatcher's filter includes a record `r` for a
listener node `n` exactly when `r.target == n` or `n` is a
previous-ancestor of `r.target`. The code walks the previous-ancestor
chain of the *listener* node comparing against the listener itself, so for
the tree where node 0 is the live parent of node 1 and a record targeting
node 1, the filter excludes the record for listener 0 (and the dispatcher
never invokes 0's handler), while the spec-side predicate includes it:
the claim is right and `RevertedTree.mutationIsInside` is a slip. -/
theorem c1_filter_misses_descendant_record :
    mutationIsInside 10 c1Dom (forMutations [c1Rec]) c1Rec 0 = false ∧
    specFilterIncludes 10 c1Dom (forMutations [c1Rec]) c1Rec 0 = true ∧
    (handleAllMutations 10 c1Dom [(0, hSilent)] [c1Rec]).invoked = [] := by
  decide

/-- C5: the claim says a throwing handler must not abort the dispatch
pass. In the code `handler(event)` is invoked bare, so when listener 1's
handler throws, listener 2 — whose filtered record set is non-empty — is
never invoked and the exception escapes the pass. -/
theorem c5_throwing_handler_aborts_pass :
    (handleAllMutations 10 trivDom [(1, hThrows), (2, hSilent)] [c5r1, c5r2]).invoked
        = [1] ∧
    (handleAllMutations 10 trivDom [(1, hThrows), (2, hSilent)] [c5r1, c5r2]).threw
        = true ∧
    [c5r1, c5r2].filter
        (fun m => mutationIsInside 10 trivDom (forMutations [c5r1, c5r2]) m 2)
      = [c5r2] := by
  decide

/-- C6: the claim says a record whose undo target structure is no longer
resolvable is reported and skipped while the rest of the batch is still
reverted. In the code the childList `insertBefore` call throws
`NotFoundError` when the recorded next sibling is detached and nothing
catches it: reverting the batch [c6Old, c6New] (newest first: c6New then
c6Old) aborts at c6New with no record reported as reverted, and c6Old's
attribute is left unrestored. -/
theorem c6_unresolvable_revert_aborts_batch :
    (rollBackAll c6Dom [c6New, c6Old]).2.2 = true ∧
    (rollBackAll c6Dom [c6New, c6Old]).2.1 = [] ∧
    (rollBackAll c6Dom [c6New, c6Old]).1.attrs 5 "x" = some "new" := by
  decide

/-- C2, counterexample: the claim orders the observation callback as
revert-then-notify. On a concrete batch of one character-data record the
embedded callback's event log is stop, notify, revert, resume: the
notification (with the pre-revert batch) comes strictly before the revert,
so it is false that every revert precedes the handler invocation. -/
theorem c2_counterexample_notification_precedes_revert :
    (observerCallback [.characterData 1 "a"] c2St).2 =
      [.stopped, .notified [.characterData 1 "a"],
       .reverted (.characterData 1 "a"), .started] := by
  decide

/-- C3, counterexample: clearing the three children [1, 2, 3] of node 0
produces a single child-list record removing all three; reverting the
batch completes without error but reinserts them last-to-first before the
null recorded next sibling, leaving children [3, 2, 1] ≠ [1, 2, 3], so
the revert does not restore a tree structurally equal to the original. -/
theorem c3_counterexample_multi_removal_reversed :
    applyOps c3Dom [.removeAllChildren 0] = some c3Res ∧
    (rollBackAll c3Res.1 c3Res.2.reverse).2.2 = false ∧
    (rollBackAll c3Res.1 c3Res.2.reverse).1.children 0 = [3, 2, 1] ∧
    c3Dom.children 0 = [1, 2, 3] :=
  ⟨rfl, by decide, by decide, by decide⟩

/-- C8, counterexample: from the freshly-mounted state (root present,
revert desired, not yet observing, no pending records), `unlockForRender`
followed by `lockAfterRender` turns observation on, so the cycle is not an
identity on the lock's observation state. -/
theorem c8_counterexample_cycle_starts_observing :
    c8St.queue = [] ∧ c8St.isObserving = false ∧
    (lockAfterRender (unlockForRender c8St).1).1.isObserving = true := by
  decide

/-! ### Lock-level lemmas and claims -/

/-- No notification event hides among mapped revert events. -/
theorem filter_notified_map_reverted (l : List MRecord) :
    (l.map LockEvent.reverted).filter LockEvent.isNotifiedEv = [] := by
  induction l with
  | nil => rfl
  | cons r rest ih => simp [LockEvent.isNotifiedEv, ih]

/-- Filtering mapped revert events for revert events keeps them all. -/
theorem filter_reverted_map (l : List MRecord) :
    (l.map LockEvent.reverted).filter LockEvent.isRevertedEv
      = l.map LockEvent.reverted := by
  induction l with
  | nil => rfl
  | cons r rest ih => simp [LockEvent.isRevertedEv, ih]

/-- Mapped revert events are all revert events. -/
theorem all_reverted_map (l : List MRecord) :
    (l.map LockEvent.reverted).all (fun e => e.isRevertedEv || e == .started) = true := by
  induction l with
  | nil => rfl
  | cons r rest ih => simp_all [LockEvent.isRevertedEv]

/-- The records reverted by the roll-back loop form a prefix of the list it
was given (it proceeds in order and stops at the first failure). -/
theorem rollBackAll_front_segment (d : Dom) (l : List MRecord) :
    (rollBackAll d l).2.1 = l.take (rollBackAll d l).2.1.length := by
  induction l generalizing d with
  | nil => rfl
  | cons r rest ih =>
    simp only [rollBackAll]
    cases revertDOMMutation d r with
    | ok d1 => simpa using ih d1
    | error e => rfl

/-- C7: when the host provides no `MutationObserver`, the lock degrades to
a passthrough: `mutate fn` applies `fn` to the current root and tree,
returns its value, leaves every other part of the lock state unchanged,
and the event log is empty — no batch is notified, nothing is reverted,
and no error is surfaced. -/
theorem c7_missing_observer_mutate_is_passthrough {α : Type}
    (fn : Option Nat → Dom → Dom × α) (s : LockState)
    (h : s.observerPresent = false) :
    mutate fn s =
      ({ s with dom := (fn s.node s.dom).1 }, [], some (fn s.node s.dom).2) := by
  cases hio : s.isObserving <;>
    simp [mutate, stopObservingAndRollBackChanges, h, hio, startObserving]

/-- Witness for C7 at a concrete observer-less lock state and mutation. -/
theorem c7_missing_observer_witness :
    c7St.observerPresent = false ∧
    mutate mutFn c7St =
      ({ c7St with dom := (mutFn c7St.node c7St.dom).1 }, [],
       some (mutFn c7St.node c7St.dom).2) :=
  ⟨rfl, c7_missing_observer_mutate_is_passthrough mutFn c7St rfl⟩

/-- C9: with the observer present, `unlockForRender` and `mutate` each
invoke the low-level `onMutations` callback exactly once, with the pending
batch in oldest-first order (the empty batch when nothing is pending, and
even when observation was not active); the revert loop then processes the
reversed copy of that same batch, leaving the notified payload intact. -/
theorem c9_notifies_exactly_once {α : Type} (fn : Option Nat → Dom → Dom × α)
    (s : LockState) (h : s.observerPresent = true) :
    ((unlockForRender s).2.1.filter LockEvent.isNotifiedEv
        = [.notified s.queue]) ∧
    ((mutate fn s).2.1.filter LockEvent.isNotifiedEv = [.notified s.queue]) ∧
    ((rollBackAll s.dom s.queue.reverse).2.1
      = s.queue.reverse.take (rollBackAll s.dom s.queue.reverse).2.1.length) := by
  refine ⟨?_, ?_, rollBackAll_front_segment s.dom s.queue.reverse⟩
  · simp [unlockForRender, stopObservingAndRollBackChanges, h,
      LockEvent.isNotifiedEv, filter_notified_map_reverted]
  · cases hio : s.isObserving <;>
      cases ht : (rollBackAll s.dom s.queue.reverse).2.2 <;>
      cases hn : s.node <;>
      simp [mutate, stopObservingAndRollBackChanges, h, hio, ht, hn,
        startObserving, LockEvent.isNotifiedEv, filter_notified_map_reverted,
        List.filter_append]

/-- Witness for C9 at a non-observing lock state with one pending record. -/
theorem c9_notifies_exactly_once_witness :
    c9St.observerPresent = true ∧
    (((unlockForRender c9St).2.1.filter LockEvent.isNotifiedEv
        = [.notified c9St.queue]) ∧
     ((mutate mutFn c9St).2.1.filter LockEvent.isNotifiedEv
        = [.notified c9St.queue]) ∧
     ((rollBackAll c9St.dom c9St.queue.reverse).2.1
       = c9St.queue.reverse.take
           (rollBackAll c9St.dom c9St.queue.reverse).2.1.length)) :=
  ⟨rfl, c9_notifies_exactly_once mutFn c9St rfl⟩

/-- C2, amended: in the observation callback the order is: observation
stops, the handler is notified once with the pre-revert oldest-first batch,
only then are records reverted (processing the reversed batch, newest
first), then observation resumes; so every notification precedes every
revert of its batch, not the other way around. -/
theorem c2_amended_notify_then_revert (records : List MRecord) (s : LockState)
    (h : s.observerPresent = true) :
    ((observerCallback records s).2.take 2
        = [.stopped, .notified (s.queue ++ records)]) ∧
    (((observerCallback records s).2.drop 2).filter LockEvent.isNotifiedEv
        = []) ∧
    (((observerCallback records s).2.drop 2).filter LockEvent.isRevertedEv
        = (rollBackAll s.dom (s.queue ++ records).reverse).2.1.map
            LockEvent.reverted) ∧
    ((rollBackAll s.dom (s.queue ++ records).reverse).2.1
      = (s.queue ++ records).reverse.take
          (rollBackAll s.dom (s.queue ++ records).reverse).2.1.length) := by
  refine ⟨?_, ?_, ?_, rollBackAll_front_segment _ _⟩
  · simp only [observerCallback, stopObservingAndRollBackChanges, h, ite_true]
    split <;> simp
  · simp only [observerCallback, stopObservingAndRollBackChanges, h, ite_true]
    split
    · simp [filter_notified_map_reverted]
    · cases hn : s.node <;>
        simp [startObserving, hn, List.filter_append,
          filter_notified_map_reverted, LockEvent.isNotifiedEv]
  · simp only [observerCallback, stopObservingAndRollBackChanges, h, ite_true]
    split
    · simp [filter_reverted_map]
    · cases hn : s.node <;>
        simp [startObserving, hn, List.filter_append, filter_reverted_map,
          LockEvent.isRevertedEv]

/-- Witness for the amended C2 at the concrete observing lock state. -/
theorem c2_amended_notify_then_revert_witness :
    c2St.observerPresent = true ∧
    (((observerCallback c2Batch c2St).2.take 2
        = [.stopped, .notified (c2St.queue ++ c2Batch)]) ∧
     (((observerCallback c2Batch c2St).2.drop 2).filter LockEvent.isNotifiedEv
        = []) ∧
     (((observerCallback c2Batch c2St).2.drop 2).filter LockEvent.isRevertedEv
        = (rollBackAll c2St.dom (c2St.queue ++ c2Batch).reverse).2.1.map
            LockEvent.reverted) ∧
     ((rollBackAll c2St.dom (c2St.queue ++ c2Batch).reverse).2.1
       = (c2St.queue ++ c2Batch).reverse.take
           (rollBackAll c2St.dom (c2St.queue ++ c2Batch).reverse).2.1.length)) :=
  ⟨rfl, c2_amended_notify_then_revert c2Batch c2St rfl⟩

/-- C8, amended: with no pending records, the `unlockForRender` /
`lockAfterRender` cycle leaves the whole lock state — including the guarded
tree — unchanged provided the observing flag already equals its steady
value `shouldRevert && root present` (in particular whenever the lock is
currently observing); from other states (the fresh mount) the cycle turns
observation on, so it is idempotent but not the identity. No revert is
performed either way. -/
theorem c8_amended_cycle_identity (s : LockState) (hq : s.queue = [])
    (hobs : s.isObserving = (s.shouldRevert && s.node.isSome)) :
    (lockAfterRender (unlockForRender s).1).1 = s ∧
    (unlockForRender s).2.2 = false := by
  obtain ⟨op, io, sr, nd, q, dm⟩ := s
  simp only at hq hobs
  subst hq
  cases op <;> cases sr <;> cases nd <;> simp_all [unlockForRender,
    stopObservingAndRollBackChanges, lockAfterRender, startObserving,
    rollBackAll]

/-- Witness for the amended C8 at a concrete observing lock state. -/
theorem c8_amended_cycle_identity_witness :
    c8wSt.queue = [] ∧
    c8wSt.isObserving = (c8wSt.shouldRevert && c8wSt.node.isSome) ∧
    ((lockAfterRender (unlockForRender c8wSt).1).1 = c8wSt ∧
     (unlockForRender c8wSt).2.2 = false) :=
  ⟨rfl, rfl, c8_amended_cycle_identity c8wSt rfl rfl⟩

/-! ### Registry lemmas and claim C10 -/

/-- Setting a key makes it retrievable. -/
theorem mapGet_mapSet_self {α β : Type} [DecidableEq α] (k : α) (v : β)
    (l : List (α × β)) : mapGet k (mapSet k v l) = some v := by
  induction l with
  | nil => simp [mapSet, mapGet]
  | cons p rest ih =>
    obtain ⟨k', v'⟩ := p
    by_cases h : k' = k <;> simp [mapSet, mapGet, h, ih]

/-- Setting one key leaves lookups of another key alone. -/
theorem mapGet_mapSet_ne {α β : Type} [DecidableEq α] {q k : α} (v : β)
    (l : List (α × β)) (h : q ≠ k) : mapGet q (mapSet k v l) = mapGet q l := by
  induction l with
  | nil => simp [mapSet, mapGet, Ne.symm h]
  | cons p rest ih =>
    obtain ⟨k', v'⟩ := p
    by_cases hk : k' = k
    · simp [mapSet, mapGet, hk, Ne.symm h]
    · simp [mapSet, mapGet, hk, ih]

/-- Deleting one key leaves lookups of another key alone. -/
theorem mapGet_mapDelete_ne {α β : Type} [DecidableEq α] {q k : α}
    (l : List (α × β)) (h : q ≠ k) : mapGet q (mapDelete k l) = mapGet q l := by
  induction l with
  | nil => rfl
  | cons p rest ih =>
    obtain ⟨k', v'⟩ := p
    by_cases hk : k' = k
    · simp [mapDelete, mapGet, hk, Ne.symm h]
    · simp [mapDelete, mapGet, hk, ih]

/-- A key absent from the key list is not retrievable. -/
theorem mapGet_eq_none_of_not_mem {α β : Type} [DecidableEq α] (k : α)
    (l : List (α × β)) (h : k ∉ l.map Prod.fst) : mapGet k l = none := by
  induction l with
  | nil => rfl
  | cons p rest ih =>
    obtain ⟨k', v'⟩ := p
    simp only [List.map_cons, List.mem_cons] at h
    push_neg at h
    simp [mapGet, Ne.symm h.1, ih h.2]

/-- With duplicate-free keys, a deleted key is gone. -/
theorem mapGet_mapDelete_self {α β : Type} [DecidableEq α] (k : α)
    (l : List (α × β)) (h : (l.map Prod.fst).Nodup) :
    mapGet k (mapDelete k l) = none := by
  induction l with
  | nil => rfl
  | cons p rest ih =>
    obtain ⟨k', v'⟩ := p
    simp only [List.map_cons, List.nodup_cons] at h
    by_cases hk : k' = k
    · subst hk
      have step : mapDelete k' ((k', v') :: rest) = rest := by
        simp [mapDelete]
      rw [step]
      exact mapGet_eq_none_of_not_mem k' rest h.1
    · simp [mapDelete, mapGet, hk, ih h.2]

/-- Deletion yields a sublist. -/
theorem mapDelete_sublist {α β : Type} [DecidableEq α] (k : α)
    (l : List (α × β)) : List.Sublist (mapDelete k l) l := by
  induction l with
  | nil => simp [mapDelete]
  | cons p rest ih =>
    obtain ⟨k', v'⟩ := p
    by_cases hk : k' = k
    · simp only [mapDelete, if_pos hk]
      exact List.sublist_cons_self (k', v') rest
    · simpa [mapDelete, hk] using ih.cons₂ (k', v')

/-- A key is in the key list of a set exactly when it is the set key or
was there before. -/
theorem mem_keys_mapSet {α β : Type} [DecidableEq α] (x k : α) (v : β)
    (l : List (α × β)) :
    x ∈ (mapSet k v l).map Prod.fst ↔ x = k ∨ x ∈ l.map Prod.fst := by
  induction l with
  | nil => simp [mapSet]
  | cons p rest ih =>
    obtain ⟨k', v'⟩ := p
    by_cases hk : k' = k
    · subst hk
      by_cases hx : x = k' <;> simp [mapSet, hx]
    · simp [mapSet, hk, ih]
      tauto

/-- Setting a key preserves duplicate-freeness of the key list. -/
theorem keys_mapSet_nodup {α β : Type} [DecidableEq α] (k : α) (v : β)
    (l : List (α × β)) (h : (l.map Prod.fst).Nodup) :
    ((mapSet k v l).map Prod.fst).Nodup := by
  induction l with
  | nil => simp [mapSet]
  | cons p rest ih =>
    obtain ⟨k', v'⟩ := p
    simp only [List.map_cons, List.nodup_cons] at h
    by_cases hk : k' = k
    · subst hk
      simp [mapSet, h.1, h.2]
    · have step : mapSet k v ((k', v') :: rest) = (k', v') :: mapSet k v rest := by
        simp [mapSet, hk]
      rw [step]
      simp only [List.map_cons, List.nodup_cons]
      refine ⟨?_, ih h.2⟩
      rw [mem_keys_mapSet]
      push_neg
      exact ⟨hk, h.1⟩

/-- Deleting a key preserves duplicate-freeness of the key list. -/
theorem keys_mapDelete_nodup {α β : Type} [DecidableEq α] (k : α)
    (l : List (α × β)) (h : (l.map Prod.fst).Nodup) :
    ((mapDelete k l).map Prod.fst).Nodup :=
  h.sublist ((mapDelete_sublist k l).map Prod.fst)

/-- Unregistering preserves duplicate-free handler keys. -/
theorem unregister_keys_nodup {β : Type} (r : MutableRegistry β) (id : Nat)
    (h : (r.nodeToHandler.map Prod.fst).Nodup) :
    ((r.unregister id).nodeToHandler.map Prod.fst).Nodup := by
  unfold MutableRegistry.unregister
  cases mapGet id r.idToNode <;> simp [h, keys_mapDelete_nodup]

/-- Registering preserves duplicate-free handler keys. -/
theorem register_keys_nodup {β : Type} (r : MutableRegistry β) (id : Nat)
    (nd : Option Nat) (f : β) (h : (r.nodeToHandler.map Prod.fst).Nodup) :
    ((r.register id nd f).nodeToHandler.map Prod.fst).Nodup :=
  keys_mapSet_nodup nd f _ (unregister_keys_nodup r id h)

/-- C10: the registry keeps at most one handler per node. Registering the
same node under a second id replaces the node's handler; afterwards
unregistering either id deletes the node's handler mapping entirely (the
first registration's handler is not restored), while the other id still
maps to the node in the id-to-node table. -/
theorem c10_one_handler_per_node (r : MutableRegistry Nat)
    (id1 id2 n f1 f2 : Nat) (hid : id1 ≠ id2)
    (hkeys : (r.nodeToHandler.map Prod.fst).Nodup) :
    mapGet (some n)
        ((r.register id1 (some n) f1).register id2 (some n) f2).nodeToHandler
      = some f2 ∧
    mapGet (some n)
        (((r.register id1 (some n) f1).register id2 (some n) f2).unregister
          id1).nodeToHandler = none ∧
    mapGet (some n)
        (((r.register id1 (some n) f1).register id2 (some n) f2).unregister
          id2).nodeToHandler = none ∧
    mapGet id1
        (((r.register id1 (some n) f1).register id2 (some n) f2).unregister
          id2).idToNode = some (some n) ∧
    mapGet id2
        (((r.register id1 (some n) f1).register id2 (some n) f2).unregister
          id1).idToNode = some (some n) := by
  set r1 := r.register id1 (some n) f1 with hr1
  set r2 := r1.register id2 (some n) f2 with hr2
  have knodup : (r2.nodeToHandler.map Prod.fst).Nodup :=
    register_keys_nodup r1 id2 (some n) f2
      (register_keys_nodup r id1 (some n) f1 hkeys)
  have hg1 : mapGet id1 r2.idToNode = some (some n) := by
    show mapGet id1 (mapSet id2 (some n) (mapDelete id2 r1.idToNode)) = _
    rw [mapGet_mapSet_ne _ _ hid, mapGet_mapDelete_ne _ hid]
    exact mapGet_mapSet_self id1 (some n) _
  have hg2 : mapGet id2 r2.idToNode = some (some n) :=
    mapGet_mapSet_self id2 (some n) _
  refine ⟨mapGet_mapSet_self (some n) f2 _, ?_, ?_, ?_, ?_⟩
  · show mapGet (some n)
        (match mapGet id1 r2.idToNode with
          | none => r2.nodeToHandler
          | some nd => mapDelete nd r2.nodeToHandler) = none
    rw [hg1]
    exact mapGet_mapDelete_self (some n) _ knodup
  · show mapGet (some n)
        (match mapGet id2 r2.idToNode with
          | none => r2.nodeToHandler
          | some nd => mapDelete nd r2.nodeToHandler) = none
    rw [hg2]
    exact mapGet_mapDelete_self (some n) _ knodup
  · show mapGet id1 (mapDelete id2 r2.idToNode) = some (some n)
    rw [mapGet_mapDelete_ne _ hid]
    exact hg1
  · show mapGet id2 (mapDelete id1 r2.idToNode) = some (some n)
    rw [mapGet_mapDelete_ne _ (Ne.symm hid)]
    exact hg2

/-- Witness for C10 starting from the empty registry with ids 1 and 2 on
node 7. -/
theorem c10_one_handler_per_node_witness :
    (1 : Nat) ≠ 2 ∧ (c10wReg.nodeToHandler.map Prod.fst).Nodup ∧
    (mapGet (some 7)
        ((c10wReg.register 1 (some 7) 11).register 2 (some 7) 22).nodeToHandler
      = some 22 ∧
    mapGet (some 7)
        (((c10wReg.register 1 (some 7) 11).register 2 (some 7) 22).unregister
          1).nodeToHandler = none ∧
    mapGet (some 7)
        (((c10wReg.register 1 (some 7) 11).register 2 (some 7) 22).unregister
          2).nodeToHandler = none ∧
    mapGet 1
        (((c10wReg.register 1 (some 7) 11).register 2 (some 7) 22).unregister
          2).idToNode = some (some 7) ∧
    mapGet 2
        (((c10wReg.register 1 (some 7) 11).register 2 (some 7) 22).unregister
          1).idToNode = some (some 7)) :=
  ⟨by decide, by decide,
    c10_one_handler_per_node c10wReg 1 2 7 11 22 (by decide) (by decide)⟩

/-! ### Revert correctness machinery (claim C3) -/

/-- A node recorded as next sibling is a member of the child list. -/
theorem nextAfter_mem (n : Nat) (l : List Nat) (r : Nat)
    (h : nextAfter n l = some r) : r ∈ l := by
  induction l with
  | nil => simp [nextAfter] at h
  | cons y rest ih =>
    by_cases hy : y = n
    · simp only [nextAfter, hy, if_pos rfl] at h
      exact List.mem_cons_of_mem _ (List.mem_of_mem_head? h)
    · simp only [nextAfter, hy, if_neg hy] at h
      exact List.mem_cons_of_mem _ (ih h)

/-- In a duplicate-free list, the recorded next sibling differs from the
removed node. -/
theorem nextAfter_ne (n : Nat) (l : List Nat) (r : Nat) (hnd : l.Nodup)
    (h : nextAfter n l = some r) : r ≠ n := by
  induction l with
  | nil => simp [nextAfter] at h
  | cons y rest ih =>
    simp only [List.nodup_cons] at hnd
    by_cases hy : y = n
    · simp only [nextAfter, if_pos hy] at h
      subst hy
      intro hrn
      exact hnd.1 (hrn ▸ List.mem_of_mem_head? h)
    · simp only [nextAfter, if_neg hy] at h
      exact ih hnd.2 h

/-- Erasing a freshly inserted node undoes the insertion. -/
theorem erase_insertList (n : Nat) (ref : Option Nat) (l : List Nat)
    (h : n ∉ l) : (insertList n ref l).erase n = l := by
  induction l with
  | nil =>
    cases ref <;> simp [insertList]
  | cons y rest ih =>
    simp only [List.mem_cons] at h
    push_neg at h
    cases ref with
    | none =>
      simp only [insertList]
      rw [List.erase_cons_tail, ih h.2]
      simp [Ne.symm h.1]
    | some rr =>
      by_cases hy : y = rr
      · simp [insertList, hy, List.erase_cons, Ne.symm h.1]
      · simp only [insertList, if_neg hy]
        rw [List.erase_cons_tail, ih h.2]
        simp [Ne.symm h.1]

/-- Reinserting an erased node before its recorded next sibling restores
the original duplicate-free child list. -/
theorem insertList_nextAfter_erase (n : Nat) (l : List Nat)
    (hmem : n ∈ l) (hnd : l.Nodup) :
    insertList n (nextAfter n l) (l.erase n) = l := by
  induction l with
  | nil => simp at hmem
  | cons y rest ih =>
    simp only [List.nodup_cons] at hnd
    by_cases hy : y = n
    · subst hy
      simp only [nextAfter, if_pos rfl, List.erase_cons_head]
      cases rest with
      | nil => rfl
      | cons z r2 => simp [insertList]
    · have hmem2 : n ∈ rest := by
        rcases List.mem_cons.1 hmem with h1 | h1
        · exact absurd h1.symm hy
        · exact h1
      have step : (y :: rest).erase n = y :: rest.erase n := by
        rw [List.erase_cons_tail]
        simpa using hy
      rw [step]
      simp only [nextAfter, if_neg hy]
      cases hna : nextAfter n rest with
      | none =>
        have hih := ih hmem2 hnd.2
        rw [hna] at hih
        simp only [insertList, hih]
      | some rr =>
        have hih := ih hmem2 hnd.2
        rw [hna] at hih
        have hrr : rr ∈ rest := nextAfter_mem n rest rr hna
        have hyr : y ≠ rr := fun e => hnd.1 (e ▸ hrr)
        simp only [insertList, if_neg hyr, hih]

/-- Detaching a parentless node changes nothing. -/
theorem detachM_of_parent_none (d : Dom) (n : Nat) (h : d.parent n = none) :
    detachM d n = d := by
  unfold detachM
  rw [h]

/-- Removing an attribute that was just set restores the state in which it
was absent. -/
theorem removeAttr_setAttr (d : Dom) (t : Nat) (nm v : String)
    (h : d.attrs t nm = none) : removeAttrM (setAttrM d t nm v) t nm = d := by
  obtain ⟨c, p, a, tx⟩ := d
  simp only [setAttrM, removeAttrM, Dom.mk.injEq, true_and, and_true]
  funext n s
  by_cases h1 : n = t ∧ s = nm
  · obtain ⟨rfl, rfl⟩ := h1
    simp only at h
    simp [h]
  · simp [h1]

/-- Setting an attribute back to its previous value undoes a set. -/
theorem setAttr_setAttr (d : Dom) (t : Nat) (nm v old : String)
    (h : d.attrs t nm = some old) : setAttrM (setAttrM d t nm v) t nm old = d := by
  obtain ⟨c, p, a, tx⟩ := d
  simp only [setAttrM, Dom.mk.injEq, true_and, and_true]
  funext n s
  by_cases h1 : n = t ∧ s = nm
  · obtain ⟨rfl, rfl⟩ := h1
    simp only at h
    simp [h]
  · simp [h1]

/-- Setting an attribute back to its previous value undoes a removal. -/
theorem setAttr_removeAttr (d : Dom) (t : Nat) (nm old : String)
    (h : d.attrs t nm = some old) : setAttrM (removeAttrM d t nm) t nm old = d := by
  obtain ⟨c, p, a, tx⟩ := d
  simp only [setAttrM, removeAttrM, Dom.mk.injEq, true_and, and_true]
  funext n s
  by_cases h1 : n = t ∧ s = nm
  · obtain ⟨rfl, rfl⟩ := h1
    simp only at h
    simp [h]
  · simp [h1]

/-- Removing an already absent attribute after removing it again is the
identity. -/
theorem removeAttr_removeAttr (d : Dom) (t : Nat) (nm : String)
    (h : d.attrs t nm = none) : removeAttrM (removeAttrM d t nm) t nm = d := by
  obtain ⟨c, p, a, tx⟩ := d
  simp only [removeAttrM, Dom.mk.injEq, true_and, and_true]
  funext n s
  by_cases h1 : n = t ∧ s = nm
  · obtain ⟨rfl, rfl⟩ := h1
    simp only at h
    simp [h]
  · simp [h1]

/-- Writing the previous text back undoes a text write. -/
theorem setText_setText (d : Dom) (t : Nat) (v : String) :
    setTextM (setTextM d t v) t (d.text t) = d := by
  obtain ⟨c, p, a, tx⟩ := d
  simp only [setTextM, Dom.mk.injEq, true_and, and_true]
  funext n
  by_cases h1 : n = t
  · subst h1
    simp
  · simp [h1]

/-- Under its preconditions, `insertBefore` computes to a plain insertion
into the target's child list. -/
theorem insertBeforeM_of_pre (d : Dom) (t node : Nat) (ref : Option Nat)
    (hp : d.parent node = none)
    (hr : ∀ rr, ref = some rr → rr ∈ d.children t) :
    insertBeforeM d t node ref = .ok
      { d with
        children := fun n =>
          if n = t then insertList node ref (d.children t) else d.children n
        parent := fun n => if n = node then some t else d.parent n } := by
  cases ref with
  | none => simp [insertBeforeM, detachM_of_parent_none d node hp]
  | some rr =>
    simp [insertBeforeM, detachM_of_parent_none d node hp, hr rr rfl]

/-- Detaching the freshly inserted node undoes the insertion. -/
theorem detachM_insert (d : Dom) (t node : Nat) (ref : Option Nat)
    (hp : d.parent node = none) (hmem : node ∉ d.children t) :
    detachM
      { d with
        children := fun n =>
          if n = t then insertList node ref (d.children t) else d.children n
        parent := fun n => if n = node then some t else d.parent n } node = d := by
  obtain ⟨c, p, a, tx⟩ := d
  simp only at hp hmem
  unfold detachM
  simp only [eq_self_iff_true, if_true, Dom.mk.injEq, true_and, and_true]
  constructor
  · funext n
    by_cases hn : n = t
    · subst hn
      simp [erase_insertList node ref (c n) hmem]
    · simp [hn]
  · funext n
    by_cases hn : n = node
    · subst hn
      simp [hp]
    · simp [hn]

/-- Reinserting a detached child before its recorded next sibling undoes
the detachment. -/
theorem insert_after_detach (d : Dom) (t node : Nat)
    (hmem : node ∈ d.children t) (hnd : (d.children t).Nodup)
    (hp : d.parent node = some t) :
    insertBeforeM (detachM d node) t node (nextAfter node (d.children t))
      = .ok d := by
  obtain ⟨c, p, a, tx⟩ := d
  simp only at hmem hnd hp
  have hd : detachM (Dom.mk c p a tx) node =
      Dom.mk (fun n => if n = t then (c t).erase node else c n)
        (fun n => if n = node then none else p n) a tx := by
    unfold detachM
    simp only [hp]
  rw [hd]
  rw [insertBeforeM_of_pre _ t node _ (by simp) ?hr]
  case hr =>
    intro rr hrr
    have h1 : rr ∈ c t := nextAfter_mem node (c t) rr hrr
    have h2 : rr ≠ node := nextAfter_ne node (c t) rr hnd hrr
    simp only [if_pos rfl]
    exact (List.mem_erase_of_ne h2).2 h1
  congr 1
  simp only [Dom.mk.injEq, true_and, and_true]
  constructor
  · funext n
    by_cases hn : n = t
    · subst hn
      simp [insertList_nextAfter_erase node (c n) hmem hnd]
    · simp [hn]
  · funext n
    by_cases hn : n = node
    · subst hn
      simp [hp.symm]
    · simp [hn]

/-- Reverting the record of a single applied edit (other than the
replace-all write) restores the tree the edit started from. -/
theorem applyOp_revert (d : Dom) (op : MutOp) (d1 : Dom) (r : MRecord)
    (hop : op.isRemoveAll = false) (h : applyOp d op = some (d1, r)) :
    revertDOMMutation d1 r = .ok d := by
  cases op with
  | setAttr t nm v =>
    simp only [applyOp, Option.some.injEq, Prod.mk.injEq] at h
    obtain ⟨rfl, rfl⟩ := h
    cases hv : d.attrs t nm with
    | none =>
      simp only [revertDOMMutation, hv]
      rw [removeAttr_setAttr d t nm v hv]
    | some old =>
      simp only [revertDOMMutation, hv]
      rw [setAttr_setAttr d t nm v old hv]
  | removeAttr t nm =>
    simp only [applyOp, Option.some.injEq, Prod.mk.injEq] at h
    obtain ⟨rfl, rfl⟩ := h
    cases hv : d.attrs t nm with
    | none =>
      simp only [revertDOMMutation, hv]
      rw [removeAttr_removeAttr d t nm hv]
    | some old =>
      simp only [revertDOMMutation, hv]
      rw [setAttr_removeAttr d t nm old hv]
  | setText t v =>
    simp only [applyOp, Option.some.injEq, Prod.mk.injEq] at h
    obtain ⟨rfl, rfl⟩ := h
    simp only [revertDOMMutation]
    rw [setText_setText d t v]
  | insertBefore t node ref =>
    simp only [applyOp] at h
    split at h
    case isTrue hc =>
      obtain ⟨hp, hmem, hnt, hrefok⟩ := hc
      have hr : ∀ rr, ref = some rr → rr ∈ d.children t := by
        intro rr hrr
        subst hrr
        simp only [decide_eq_true_eq] at hrefok
        exact hrefok.1
      rw [insertBeforeM_of_pre d t node ref hp hr] at h
      simp only [Option.some.injEq, Prod.mk.injEq] at h
      obtain ⟨rfl, rfl⟩ := h
      simp only [revertDOMMutation, reinsertRemoved, List.reverse_nil,
        reinsertRemovedRev, removeAdded, List.reverse_cons, List.nil_append,
        List.foldl_cons, List.foldl_nil]
      rw [detachM_insert d t node ref hp hmem]
    case isFalse => exact absurd h (by simp)
  | removeChild t node =>
    simp only [applyOp] at h
    split at h
    case isTrue hc =>
      obtain ⟨hmem, hnd, hp⟩ := hc
      simp only [Option.some.injEq, Prod.mk.injEq] at h
      obtain ⟨rfl, rfl⟩ := h
      simp only [revertDOMMutation, reinsertRemoved, List.reverse_cons,
        List.reverse_nil, List.nil_append, reinsertRemovedRev]
      rw [insert_after_detach d t node hmem hnd hp]
      simp [reinsertRemovedRev, removeAdded]
    case isFalse => exact absurd h (by simp)
  | removeAllChildren t => simp [MutOp.isRemoveAll] at hop

/-- Records reverted without an exception are the whole given list. -/
theorem rollBackAll_done_of_ok (d : Dom) (l : List MRecord)
    (h : (rollBackAll d l).2.2 = false) : (rollBackAll d l).2.1 = l := by
  induction l generalizing d with
  | nil => rfl
  | cons r rest ih =>
    simp only [rollBackAll] at h ⊢
    cases hrev : revertDOMMutation d r with
    | ok d1 =>
      simp only [hrev] at h ⊢
      simp [ih d1 h]
    | error e =>
      simp only [hrev] at h
      simp at h

/-- Rolling back a concatenation whose first part succeeds continues into
the second part from the intermediate tree. -/
theorem rollBackAll_append (d : Dom) (l1 l2 : List MRecord)
    (h : (rollBackAll d l1).2.2 = false) :
    rollBackAll d (l1 ++ l2) =
      ((rollBackAll (rollBackAll d l1).1 l2).1,
       l1 ++ (rollBackAll (rollBackAll d l1).1 l2).2.1,
       (rollBackAll (rollBackAll d l1).1 l2).2.2) := by
  induction l1 generalizing d with
  | nil => simp [rollBackAll]
  | cons r rest ih =>
    simp only [rollBackAll, List.cons_append] at h ⊢
    cases hrev : revertDOMMutation d r with
    | ok d1 =>
      simp only [hrev] at h ⊢
      simp [ih d1 h]
    | error e =>
      simp only [hrev] at h
      simp at h

/-- C3, amended: for every tree and every sequence of attribute,
character-data and single-child child-list edits (that is, excluding the
replace-all write, whose single record removes several children and is
reinserted in reversed order — see the counterexample), reverting the
recorded batch newest-first restores the original tree exactly and every
record reverts cleanly; this covers the claim's scenario of a child with
an attribute removed and detached in one batch. -/
theorem c3_amended_revert_restores (d : Dom) (ops : List MutOp) (d1 : Dom)
    (recs : List MRecord)
    (hsingle : ops.all (fun op => !op.isRemoveAll) = true)
    (h : applyOps d ops = some (d1, recs)) :
    rollBackAll d1 recs.reverse = (d, recs.reverse, false) := by
  induction ops generalizing d recs with
  | nil =>
    simp only [applyOps, Option.some.injEq, Prod.mk.injEq] at h
    obtain ⟨rfl, rfl⟩ := h
    rfl
  | cons op rest ih =>
    simp only [List.all_cons, Bool.and_eq_true] at hsingle
    simp only [applyOps, Option.bind_eq_bind, Option.bind_eq_some,
      Option.some.injEq, Prod.mk.injEq] at h
    obtain ⟨⟨da, ra⟩, hop, ⟨db, rb⟩, hops, rfl, rfl⟩ := h
    have hrest := ih da rb hsingle.2 hops
    have hone : revertDOMMutation da ra = .ok d :=
      applyOp_revert d op da ra (by simpa using hsingle.1) hop
    have hthrew : (rollBackAll db rb.reverse).2.2 = false := by
      rw [hrest]
    simp only [List.reverse_cons]
    rw [rollBackAll_append db rb.reverse [ra] hthrew, hrest]
    simp [rollBackAll, hone]

/-- Witness for the amended C3: the claim's own scenario — child 1 of
parent 0 carries data-x = "1"; one batch removes the attribute and then
detaches the child; the revert restores the original tree exactly. -/
theorem c3_amended_revert_restores_witness :
    applyOps c3wDom c3wOps = some c3wRes ∧
    c3wOps.all (fun op => !op.isRemoveAll) = true ∧
    rollBackAll c3wRes.1 c3wRes.2.reverse = (c3wDom, c3wRes.2.reverse, false) :=
  ⟨rfl, by decide,
    c3_amended_revert_restores c3wDom c3wOps c3wRes.1 c3wRes.2 (by decide) rfl⟩

/-! ### Ordering machinery for the dispatch pass (claim C4) -/

/-- Index of the head element. -/
theorem idxOf_cons_self (x : Nat) (l : List Nat) : idxOf x (x :: l) = 0 := by
  simp [idxOf]

/-- Index past a different head element. -/
theorem idxOf_cons_ne (x y : Nat) (l : List Nat) (h : y ≠ x) :
    idxOf x (y :: l) = idxOf x l + 1 := by
  simp [idxOf, h]

/-- A member's index is within bounds. -/
theorem idxOf_lt_length (x : Nat) (l : List Nat) (h : x ∈ l) :
    idxOf x l < l.length := by
  induction l with
  | nil => simp at h
  | cons y rest ih =>
    by_cases hy : y = x
    · simp [idxOf, hy]
    · rcases List.mem_cons.1 h with e | e
      · exact absurd e.symm hy
      · simp only [idxOf, if_neg hy, List.length_cons]
        exact Nat.succ_lt_succ (ih e)

/-- The index of a member of the left part ignores the right part. -/
theorem idxOf_append_left (x : Nat) (l1 l2 : List Nat) (h : x ∈ l1) :
    idxOf x (l1 ++ l2) = idxOf x l1 := by
  induction l1 with
  | nil => simp at h
  | cons y rest ih =>
    by_cases hy : y = x
    · simp [idxOf, hy]
    · rcases List.mem_cons.1 h with e | e
      · exact absurd e.symm hy
      · simp [idxOf, hy, ih e]

/-- The index of an element absent from the left part offsets into the
right part. -/
theorem idxOf_append_right (x : Nat) (l1 l2 : List Nat) (h : x ∉ l1) :
    idxOf x (l1 ++ l2) = l1.length + idxOf x l2 := by
  induction l1 with
  | nil => simp
  | cons y rest ih =>
    simp only [List.mem_cons] at h
    push_neg at h
    rw [List.cons_append, idxOf_cons_ne x y _ (Ne.symm h.1), ih h.2,
      List.length_cons]
    omega

/-- A duplicate-free list is ordered by its own indices. -/
theorem pairwise_idxOf (l : List Nat) (h : l.Nodup) :
    l.Pairwise (fun x y => idxOf x l < idxOf y l) := by
  induction l with
  | nil => exact List.Pairwise.nil
  | cons y rest ih =>
    simp only [List.nodup_cons] at h
    refine List.pairwise_cons.2 ⟨?_, ?_⟩
    · intro z hz
      have hzy : z ≠ y := fun e => h.1 (e ▸ hz)
      rw [idxOf_cons_self, idxOf_cons_ne z y rest (fun e => hzy e.symm)]
      exact Nat.succ_pos _
    · refine ((ih h.2).imp_of_mem ?_)
      intro z w hz hw hzw
      have hzy : y ≠ z := fun e => h.1 (e ▸ hz)
      have hwy : y ≠ w := fun e => h.1 (e ▸ hw)
      rw [idxOf_cons_ne z y rest hzy, idxOf_cons_ne w y rest hwy]
      exact Nat.succ_lt_succ hzw

/-- In a list ordered by an asymmetric relation, `R b a` forces `b` to sit
strictly before `a`. -/
theorem idxOf_lt_of_pairwise {R : Nat → Nat → Prop} (l : List Nat) (a b : Nat)
    (h : l.Pairwise R) (hasym : ∀ x y, R x y → ¬ R y x)
    (ha : a ∈ l) (hb : b ∈ l) (hR : R b a) :
    idxOf b l < idxOf a l := by
  induction l with
  | nil => simp at ha
  | cons c rest ih =>
    obtain ⟨hc, hrest⟩ := List.pairwise_cons.1 h
    by_cases hbc : b = c
    · subst hbc
      have hab : a ≠ b := fun e => hasym b a hR (e ▸ hR)
      have ha' : a ∈ rest := by
        rcases List.mem_cons.1 ha with e | e
        · exact absurd e hab
        · exact e
      rw [idxOf_cons_self, idxOf_cons_ne a b rest (fun e => hab e.symm)]
      exact Nat.succ_pos _
    · by_cases hac : a = c
      · subst hac
        have hb' : b ∈ rest := by
          rcases List.mem_cons.1 hb with e | e
          · exact absurd e hbc
          · exact e
        exact absurd (hc b hb') (hasym b a hR)
      · have ha' : a ∈ rest := by
          rcases List.mem_cons.1 ha with e | e
          · exact absurd e hac
          · exact e
        have hb' : b ∈ rest := by
          rcases List.mem_cons.1 hb with e | e
          · exact absurd e hbc
          · exact e
        rw [idxOf_cons_ne a c rest (fun e => hac e.symm),
          idxOf_cons_ne b c rest (fun e => hbc e.symm)]
        exact Nat.succ_lt_succ (ih hrest ha' hb')

/-- The nodes the dispatch loop invokes form a subsequence of the listener
list it iterates. -/
theorem dispatchLoop_invoked_sublist (fuel : Nat) (d : Dom)
    (ov : Nat → Option Nat) (mutations claimed : List MRecord)
    (listeners : List (Nat × Handler)) :
    List.Sublist (dispatchLoop fuel d ov mutations claimed listeners).invoked
      (listeners.map Prod.fst) := by
  induction listeners generalizing claimed with
  | nil => simp [dispatchLoop]
  | cons p rest ih =>
    obtain ⟨node, handler⟩ := p
    simp only [dispatchLoop, List.map_cons]
    split
    · exact (ih claimed).trans (List.sublist_cons_self node _)
    · split
      · simp
      · split
        · simp
        · exact (ih _).cons₂ node

/-- Collecting the registered handlers along a traversal yields nodes that
form a subsequence of the traversal. -/
theorem filterMap_regs_fst_sublist (g : Nat → Option Handler) (l : List Nat) :
    List.Sublist ((l.filterMap fun n => (g n).map fun h => (n, h)).map Prod.fst)
      l := by
  induction l with
  | nil => simp
  | cons n rest ih =>
    simp only [List.filterMap_cons]
    cases g n with
    | none => exact ih.trans (List.sublist_cons_self n rest)
    | some h => simpa using ih.cons₂ n

mutual

/-- Preorder and postorder of a tree list the same ids. -/
theorem permT (t : DocTree) : List.Perm (preorderT t) (postorderT t) := by
  cases t with
  | node i kids =>
    show List.Perm (i :: preorderF kids) (postorderF kids ++ [i])
    exact ((permF kids).cons i).trans
      (List.perm_append_singleton i (postorderF kids)).symm

/-- Preorder and postorder of a forest list the same ids. -/
theorem permF (ts : List DocTree) : List.Perm (preorderF ts) (postorderF ts) := by
  cases ts with
  | nil => exact List.Perm.refl []
  | cons t rest =>
    show List.Perm (preorderT t ++ preorderF rest) (postorderT t ++ postorderF rest)
    exact (permT t).append (permF rest)

end

mutual

/-- A found subtree is rooted at the id it was found by. -/
theorem findT_root (a : Nat) (t sub : DocTree) (h : findT a t = some sub) :
    ∃ ks, sub = DocTree.node a ks := by
  cases t with
  | node i kids =>
    by_cases hi : i = a
    · subst hi
      have hstep : findT i (DocTree.node i kids) = some (DocTree.node i kids) := by
        simp [findT]
      rw [hstep] at h
      injection h with h
      exact ⟨kids, h.symm⟩
    · simp only [findT, if_neg hi] at h
      exact findF_root a kids sub h

/-- A subtree found in a forest is rooted at the id it was found by. -/
theorem findF_root (a : Nat) (ts : List DocTree) (sub : DocTree)
    (h : findF a ts = some sub) : ∃ ks, sub = DocTree.node a ks := by
  cases ts with
  | nil => simp [findF] at h
  | cons t rest =>
    simp only [findF] at h
    cases hft : findT a t with
    | some s =>
      rw [hft] at h
      simp only [Option.some.injEq] at h
      exact h ▸ findT_root a t s hft
    | none =>
      rw [hft] at h
      exact findF_root a rest sub h

end

mutual

/-- A findable id occurs in the preorder. -/
theorem findT_mem (a : Nat) (t sub : DocTree) (h : findT a t = some sub) :
    a ∈ preorderT t := by
  cases t with
  | node i kids =>
    by_cases hi : i = a
    · subst hi
      exact List.mem_cons_self _ _
    · simp only [findT, if_neg hi] at h
      exact List.mem_cons_of_mem i (findF_mem a kids sub h)

/-- An id findable in a forest occurs in the forest preorder. -/
theorem findF_mem (a : Nat) (ts : List DocTree) (sub : DocTree)
    (h : findF a ts = some sub) : a ∈ preorderF ts := by
  cases ts with
  | nil => simp [findF] at h
  | cons t rest =>
    simp only [findF] at h
    cases hft : findT a t with
    | some s =>
      exact List.mem_append_left _ (findT_mem a t s hft)
    | none =>
      rw [hft] at h
      exact List.mem_append_right _ (findF_mem a rest sub h)

end

mutual

/-- An id occurring in the preorder is findable. -/
theorem mem_findT (a : Nat) (t : DocTree) (h : a ∈ preorderT t) :
    ∃ sub, findT a t = some sub := by
  cases t with
  | node i kids =>
    by_cases hi : i = a
    · exact ⟨.node i kids, by simp [findT, hi]⟩
    · have h2 : a ∈ preorderF kids := by
        rcases List.mem_cons.1 h with e | e
        · exact absurd e.symm hi
        · exact e
      obtain ⟨sub, hs⟩ := mem_findF a kids h2
      exact ⟨sub, by simp [findT, hi, hs]⟩

/-- An id occurring in a forest preorder is findable there. -/
theorem mem_findF (a : Nat) (ts : List DocTree) (h : a ∈ preorderF ts) :
    ∃ sub, findF a ts = some sub := by
  cases ts with
  | nil => simp [preorderF] at h
  | cons t rest =>
    simp only [preorderF] at h
    rcases List.mem_append.1 h with e | e
    · obtain ⟨sub, hs⟩ := mem_findT a t e
      exact ⟨sub, by simp [findF, hs]⟩
    · cases hft : findT a t with
      | some s => exact ⟨s, by simp [findF, hft]⟩
      | none =>
        obtain ⟨sub, hs⟩ := mem_findF a rest e
        exact ⟨sub, by simp [findF, hft, hs]⟩

end

mutual

/-- The postorder of a subtree is a contiguous segment of the whole
postorder. -/
theorem segT (a : Nat) (t sub : DocTree) (h : findT a t = some sub) :
    ∃ l1 l2, postorderT t = l1 ++ postorderT sub ++ l2 := by
  cases t with
  | node i kids =>
    by_cases hi : i = a
    · simp only [findT, if_pos hi, Option.some.injEq] at h
      exact ⟨[], [], by simp [← h]⟩
    · simp only [findT, if_neg hi] at h
      obtain ⟨f1, f2, hseg⟩ := segF a kids sub h
      refine ⟨f1, f2 ++ [i], ?_⟩
      show postorderF kids ++ [i] = _
      rw [hseg]
      simp [List.append_assoc]

/-- The postorder of a subtree found in a forest is a contiguous segment of
the forest postorder. -/
theorem segF (a : Nat) (ts : List DocTree) (sub : DocTree)
    (h : findF a ts = some sub) :
    ∃ l1 l2, postorderF ts = l1 ++ postorderT sub ++ l2 := by
  cases ts with
  | nil => simp [findF] at h
  | cons t rest =>
    simp only [findF] at h
    cases hft : findT a t with
    | some s =>
      rw [hft] at h
      simp only [Option.some.injEq] at h
      obtain ⟨l1, l2, hseg⟩ := segT a t s hft
      refine ⟨l1, l2 ++ postorderF rest, ?_⟩
      show postorderT t ++ postorderF rest = _
      rw [hseg, ← h]
      simp [List.append_assoc]
    | none =>
      rw [hft] at h
      obtain ⟨l1, l2, hseg⟩ := segF a rest sub h
      refine ⟨postorderT t ++ l1, l2, ?_⟩
      show postorderT t ++ postorderF rest = _
      rw [hseg]
      simp [List.append_assoc]

end

/-- Membership matches the boolean `contains`. -/
theorem contains_true_iff (l : List Nat) (b : Nat) :
    (l.contains b = true) ↔ b ∈ l := by
  simp

/-- In a duplicate-free document, a strict descendant appears before its
ancestor in the postorder (innermost first). -/
theorem innermost_first (t : DocTree) (a b : Nat)
    (hnd : (preorderT t).Nodup) (hcont : containsB t a b = true)
    (hne : b ≠ a) :
    idxOf b (postorderT t) < idxOf a (postorderT t) := by
  unfold containsB at hcont
  cases hft : findT a t with
  | none =>
    rw [hft] at hcont
    simp at hcont
  | some sub =>
    rw [hft] at hcont
    have hb : b ∈ preorderT sub := (contains_true_iff _ _).1 hcont
    obtain ⟨ks, rfl⟩ := findT_root a t sub hft
    obtain ⟨l1, l2, hseg⟩ := segT a t _ hft
    have hndpost : (postorderT t).Nodup := ((permT t).nodup_iff).1 hnd
    have hbm : b ∈ postorderF ks := by
      have hbp : b ∈ postorderF ks ++ [a] := ((permT _).mem_iff).1 hb
      rcases List.mem_append.1 hbp with e | e
      · exact e
      · simp only [List.mem_singleton] at e
        exact absurd e hne
    have hseg2 : postorderT t = l1 ++ ((postorderF ks ++ [a]) ++ l2) := by
      rw [hseg]
      simp [postorderT, List.append_assoc]
    rw [hseg2] at hndpost ⊢
    rw [List.nodup_append] at hndpost
    obtain ⟨hn1, hnrest, hdisj1⟩ := hndpost
    rw [List.nodup_append] at hnrest
    obtain ⟨hnma, hn2, hdisj2⟩ := hnrest
    rw [List.nodup_append] at hnma
    obtain ⟨hnm, hna, hdisj3⟩ := hnma
    have ham : a ∉ postorderF ks := fun e => hdisj3 e (List.mem_singleton_self a)
    have hbrest : b ∈ (postorderF ks ++ [a]) ++ l2 :=
      List.mem_append_left _ (List.mem_append_left _ hbm)
    have harest : a ∈ (postorderF ks ++ [a]) ++ l2 :=
      List.mem_append_left _ (List.mem_append_right _ (List.mem_singleton_self a))
    have hbl1 : b ∉ l1 := fun e => hdisj1 e hbrest
    have hal1 : a ∉ l1 := fun e => hdisj1 e harest
    rw [idxOf_append_right b l1 _ hbl1, idxOf_append_right a l1 _ hal1]
    rw [idxOf_append_left b _ l2 (List.mem_append_left _ hbm),
      idxOf_append_left a _ l2
        (List.mem_append_right _ (List.mem_singleton_self a))]
    rw [idxOf_append_left b _ _ hbm, idxOf_append_right a _ _ ham]
    have hblt : idxOf b (postorderF ks) < (postorderF ks).length :=
      idxOf_lt_length b _ hbm
    rw [idxOf_cons_self]
    omega

mutual

/-- In a duplicate-free document, two unrelated nodes (neither contains the
other) keep their document order in the postorder. -/
theorem unrelatedT (t : DocTree) (a b : Nat)
    (hnd : (preorderT t).Nodup)
    (ha : a ∈ preorderT t) (hb : b ∈ preorderT t)
    (hab : containsB t a b = false) (hba : containsB t b a = false)
    (hpre : idxOf a (preorderT t) < idxOf b (preorderT t)) :
    idxOf a (postorderT t) < idxOf b (postorderT t) := by
  cases t with
  | node i kids =>
    have hndk : i ∉ preorderF kids ∧ (preorderF kids).Nodup := by
      simpa [preorderT, List.nodup_cons] using hnd
    by_cases hbi : b = i
    · exfalso
      have : containsB (DocTree.node i kids) b a = true := by
        unfold containsB
        subst hbi
        simp only [findT, if_pos rfl]
        exact (contains_true_iff _ _).2 ha
      rw [this] at hba
      simp at hba
    · by_cases hai : a = i
      · exfalso
        have : containsB (DocTree.node i kids) a b = true := by
          unfold containsB
          subst hai
          simp only [findT, if_pos rfl]
          exact (contains_true_iff _ _).2 hb
        rw [this] at hab
        simp at hab
      · have ha' : a ∈ preorderF kids := by
          rcases List.mem_cons.1 ha with e | e
          · exact absurd e hai
          · exact e
        have hb' : b ∈ preorderF kids := by
          rcases List.mem_cons.1 hb with e | e
          · exact absurd e hbi
          · exact e
        have hroute : ∀ x y : Nat, i ≠ x →
            containsB (DocTree.node i kids) x y = containsF kids x y := by
          intro x y hx
          unfold containsB containsF
          simp [findT, hx]
        have hpre' : idxOf a (preorderF kids) < idxOf b (preorderF kids) := by
          have e1 : idxOf a (preorderT (DocTree.node i kids))
              = idxOf a (preorderF kids) + 1 :=
            idxOf_cons_ne a i _ (fun e => hai e.symm)
          have e2 : idxOf b (preorderT (DocTree.node i kids))
              = idxOf b (preorderF kids) + 1 :=
            idxOf_cons_ne b i _ (fun e => hbi e.symm)
          omega
        have hpost := unrelatedF kids a b hndk.2 ha' hb'
          (by rw [← hroute a b (fun e => hai e.symm)]; exact hab)
          (by rw [← hroute b a (fun e => hbi e.symm)]; exact hba) hpre'
        have hpa : a ∈ postorderF kids := ((permF kids).mem_iff).1 ha'
        have hpb : b ∈ postorderF kids := ((permF kids).mem_iff).1 hb'
        show idxOf a (postorderF kids ++ [i]) < idxOf b (postorderF kids ++ [i])
        rw [idxOf_append_left a _ _ hpa, idxOf_append_left b _ _ hpb]
        exact hpost

/-- Forest version of `unrelatedT`. -/
theorem unrelatedF (ts : List DocTree) (a b : Nat)
    (hnd : (preorderF ts).Nodup)
    (ha : a ∈ preorderF ts) (hb : b ∈ preorderF ts)
    (hab : containsF ts a b = false) (hba : containsF ts b a = false)
    (hpre : idxOf a (preorderF ts) < idxOf b (preorderF ts)) :
    idxOf a (postorderF ts) < idxOf b (postorderF ts) := by
  cases ts with
  | nil => simp [preorderF] at ha
  | cons t rest =>
    have hnd' : (preorderT t).Nodup ∧ (preorderF rest).Nodup ∧
        (preorderT t).Disjoint (preorderF rest) := by
      simpa [preorderF, List.nodup_append] using hnd
    have hroute1 : ∀ x y : Nat, x ∈ preorderT t →
        containsF (t :: rest) x y = containsB t x y := by
      intro x y hx
      obtain ⟨sub, hs⟩ := mem_findT x t hx
      unfold containsF containsB
      simp [findF, hs]
    have hroute2 : ∀ x y : Nat, x ∉ preorderT t →
        containsF (t :: rest) x y = containsF rest x y := by
      intro x y hx
      cases hft : findT x t with
      | some s => exact absurd (findT_mem x t s hft) hx
      | none =>
        unfold containsF
        simp [findF, hft]
    have hpreF : preorderF (t :: rest) = preorderT t ++ preorderF rest := rfl
    have hpostF : postorderF (t :: rest) = postorderT t ++ postorderF rest := rfl
    rw [hpreF] at ha hb hpre
    rw [hpostF]
    rcases List.mem_append.1 ha with ha1 | ha2
    · rcases List.mem_append.1 hb with hb1 | hb2
      · -- both inside the first tree
        have hpre' : idxOf a (preorderT t) < idxOf b (preorderT t) := by
          rw [idxOf_append_left a _ _ ha1, idxOf_append_left b _ _ hb1] at hpre
          exact hpre
        have hpost := unrelatedT t a b hnd'.1 ha1 hb1
          (by rw [← hroute1 a b ha1]; exact hab)
          (by rw [← hroute1 b a hb1]; exact hba) hpre'
        have hpa : a ∈ postorderT t := ((permT t).mem_iff).1 ha1
        have hpb : b ∈ postorderT t := ((permT t).mem_iff).1 hb1
        rw [idxOf_append_left a _ _ hpa, idxOf_append_left b _ _ hpb]
        exact hpost
      · -- a in the first tree, b later: document order preserved freely
        have hbnt : b ∉ preorderT t := fun e => hnd'.2.2 e hb2
        have hpa : a ∈ postorderT t := ((permT t).mem_iff).1 ha1
        have hpbnt : b ∉ postorderT t := fun e =>
          hbnt (((permT t).mem_iff).2 e)
        rw [idxOf_append_left a _ _ hpa, idxOf_append_right b _ _ hpbnt]
        have := idxOf_lt_length a (postorderT t) hpa
        omega
    · rcases List.mem_append.1 hb with hb1 | hb2
      · -- b in the first tree but a later contradicts document order
        exfalso
        have hant : a ∉ preorderT t := fun e => hnd'.2.2 e ha2
        rw [idxOf_append_right a _ _ hant, idxOf_append_left b _ _ hb1] at hpre
        have := idxOf_lt_length b (preorderT t) hb1
        omega
      · -- both in the remaining forest
        have hant : a ∉ preorderT t := fun e => hnd'.2.2 e ha2
        have hbnt : b ∉ preorderT t := fun e => hnd'.2.2 e hb2
        have hpre' : idxOf a (preorderF rest) < idxOf b (preorderF rest) := by
          rw [idxOf_append_right a _ _ hant, idxOf_append_right b _ _ hbnt]
            at hpre
          omega
        have hpost := unrelatedF rest a b hnd'.2.1 ha2 hb2
          (by rw [← hroute2 a b hant]; exact hab)
          (by rw [← hroute2 b a hbnt]; exact hba) hpre'
        have hpant : a ∉ postorderT t := fun e => hant (((permT t).mem_iff).2 e)
        have hpbnt : b ∉ postorderT t := fun e => hbnt (((permT t).mem_iff).2 e)
        rw [idxOf_append_right a _ _ hpant, idxOf_append_right b _ _ hpbnt]
        omega

end

/-- C4: over the spec-modelled `depthFirstListeners` order, the dispatch
pass visits listeners innermost first — when listener node `a` strictly
contains listener node `b`, `b`'s handler is invoked before `a`'s for any
batch in which both are invoked — and two unrelated listener nodes are
visited in document order, the preceding node first. -/
theorem c4_dispatch_innermost_first (t : DocTree) (regs : List (Nat × Handler))
    (fuel : Nat) (d : Dom) (mutations : List MRecord)
    (hnd : (preorderT t).Nodup) :
    (∀ a b : Nat, containsB t a b = true → b ≠ a →
      a ∈ (handleAllMutations fuel d (depthFirstListeners t regs) mutations).invoked →
      b ∈ (handleAllMutations fuel d (depthFirstListeners t regs) mutations).invoked →
      idxOf b (handleAllMutations fuel d (depthFirstListeners t regs) mutations).invoked
        < idxOf a (handleAllMutations fuel d (depthFirstListeners t regs) mutations).invoked) ∧
    (∀ a b : Nat, containsB t a b = false → containsB t b a = false →
      idxOf a (preorderT t) < idxOf b (preorderT t) →
      a ∈ (handleAllMutations fuel d (depthFirstListeners t regs) mutations).invoked →
      b ∈ (handleAllMutations fuel d (depthFirstListeners t regs) mutations).invoked →
      idxOf a (handleAllMutations fuel d (depthFirstListeners t regs) mutations).invoked
        < idxOf b (handleAllMutations fuel d (depthFirstListeners t regs) mutations).invoked) := by
  have hsub : List.Sublist
      (handleAllMutations fuel d (depthFirstListeners t regs) mutations).invoked
      (postorderT t) := by
    have h1 := dispatchLoop_invoked_sublist fuel d (forMutations mutations)
      mutations [] (depthFirstListeners t regs)
    have h2 : List.Sublist ((depthFirstListeners t regs).map Prod.fst)
        (postorderT t) := by
      unfold depthFirstListeners
      exact filterMap_regs_fst_sublist (fun n => mapGet n regs) (postorderT t)
    exact h1.trans h2
  have hndpost : (postorderT t).Nodup := ((permT t).nodup_iff).1 hnd
  have hpw := List.Pairwise.sublist hsub (pairwise_idxOf (postorderT t) hndpost)
  have hasym : ∀ x y : Nat, idxOf x (postorderT t) < idxOf y (postorderT t) →
      ¬ idxOf y (postorderT t) < idxOf x (postorderT t) := by
    intro x y h1 h2
    omega
  constructor
  · intro a b hcont hne hain hbin
    exact idxOf_lt_of_pairwise _ a b hpw hasym hain hbin
      (innermost_first t a b hnd hcont hne)
  · intro a b hab hba hpre hain hbin
    have hamem : a ∈ preorderT t := ((permT t).mem_iff).2 (hsub.subset hain)
    have hbmem : b ∈ preorderT t := ((permT t).mem_iff).2 (hsub.subset hbin)
    exact idxOf_lt_of_pairwise _ b a hpw hasym hbin hain
      (unrelatedT t a b hnd hamem hbmem hab hba hpre)

/-- Witness for C4 at a concrete document (0 contains 1 contains 2, and 3
beside them) with listeners on nodes 0 and 1. -/
theorem c4_dispatch_innermost_first_witness :
    (preorderT c4wTree).Nodup ∧
    ((∀ a b : Nat, containsB c4wTree a b = true → b ≠ a →
      a ∈ (handleAllMutations 10 trivDom (depthFirstListeners c4wTree c4wRegs) c4wMuts).invoked →
      b ∈ (handleAllMutations 10 trivDom (depthFirstListeners c4wTree c4wRegs) c4wMuts).invoked →
      idxOf b (handleAllMutations 10 trivDom (depthFirstListeners c4wTree c4wRegs) c4wMuts).invoked
        < idxOf a (handleAllMutations 10 trivDom (depthFirstListeners c4wTree c4wRegs) c4wMuts).invoked) ∧
    (∀ a b : Nat, containsB c4wTree a b = false → containsB c4wTree b a = false →
      idxOf a (preorderT c4wTree) < idxOf b (preorderT c4wTree) →
      a ∈ (handleAllMutations 10 trivDom (depthFirstListeners c4wTree c4wRegs) c4wMuts).invoked →
      b ∈ (handleAllMutations 10 trivDom (depthFirstListeners c4wTree c4wRegs) c4wMuts).invoked →
      idxOf a (handleAllMutations 10 trivDom (depthFirstListeners c4wTree c4wRegs) c4wMuts).invoked
        < idxOf b (handleAllMutations 10 trivDom (depthFirstListeners c4wTree c4wRegs) c4wMuts).invoked)) :=
  ⟨by decide, c4_dispatch_innermost_first c4wTree c4wRegs 10 trivDom c4wMuts (by decide)⟩

end MutableDom
